import Mathlib

/-!
Verification of the CloudCannon `javascript-api` example application.

The repository's only algorithmic component is `buildFileTree` (defined
identically in the `FileTree` and `FileBrowser` components): it converts a
flat list of `{path}` records into a sorted forest of file/directory nodes.
Around it sit a syntax-highlighting lookup (`getLanguageFromPath`), an editor
save state machine (`handleSave` / `loadFileContent` in `CodeEditor`), and a
host-API binding hook (`useCloudCannonAPI`) plus a per-collection browser
(`CollectionBrowser`) that register event listeners and refetch lists.

This file gives a shallow embedding of those parts and proves properties of
the embedding.  JavaScript strings are embedded as `List Char`, JavaScript
objects used as string-keyed maps as insertion-ordered association lists
(JavaScript objects preserve string-key insertion order and the keys used
here always equal the node's `name`), thrown exceptions as `Option`/`Except`
failure, and `Array.prototype.sort` (a stable sort consistent with the
comparator) as stable insertion sort.
-/

/-- JavaScript strings, embedded as their list of characters. -/
abbrev JSStr := List Char

/-- `s.split(sep)` for a single-character separator, as in
`file.path.split('/')` and `path.split('.')` in the source.
`"".split(sep)` is `[""]`, `"/".split('/')` is `["", ""]`. -/
def splitOnChar (sep : Char) : JSStr → List JSStr
  | [] => [[]]
  | c :: rest =>
    if c = sep then [] :: splitOnChar sep rest
    else match splitOnChar sep rest with
      | [] => [[c]]
      | h :: t => (c :: h) :: t

/-- `parts.join(sep)` for a single-character separator, as in
`parts.slice(0, index + 1).join('/')` in the source. -/
def joinChar (sep : Char) : List JSStr → JSStr
  | [] => []
  | [s] => s
  | s :: rest => s ++ sep :: joinChar sep rest

/-- One character of `String.prototype.toLowerCase`.  The paths handled by
the source are ASCII; this maps `'A'..'Z'` to `'a'..'z'` and leaves every
other character unchanged. -/
def charToLower (c : Char) : Char :=
  if 65 ≤ c.toNat ∧ c.toNat ≤ 90 then Char.ofNat (c.toNat + 32) else c

/-- Three-way comparison of naturals, written out so that every fact about it
is provable by case analysis. -/
def natCmp (m n : Nat) : Ordering :=
  if m < n then .lt else if n < m then .gt else .eq

/-- Lexicographic extension of a three-way comparator to lists. -/
def lexCmp (c : α → α → Ordering) : List α → List α → Ordering
  | [], [] => .eq
  | [], _ :: _ => .lt
  | _ :: _, [] => .gt
  | a :: as, b :: bs => match c a b with | .eq => lexCmp c as bs | o => o

/-- Run comparator `f`; on a tie fall back to comparator `g`. -/
def thenCmp (f g : α → α → Ordering) (a b : α) : Ordering :=
  match f a b with | .eq => g a b | o => o

/-- The two comparator laws every (consistent) JavaScript sort comparator is
assumed to satisfy: antisymmetry under swapping the arguments, and
transitivity of "not greater". -/
structure LawfulCmp (c : α → α → Ordering) : Prop where
  symm : ∀ a b, c a b = (c b a).swap
  le_trans : ∀ {a b d : α}, c a b ≠ .gt → c b d ≠ .gt → c a d ≠ .gt

theorem Ordering.swap_swap_eq (o : Ordering) : o.swap.swap = o := by
  cases o <;> rfl

theorem LawfulCmp.gt_iff_lt {c : α → α → Ordering} (h : LawfulCmp c) {a b : α} :
    c a b = .gt ↔ c b a = .lt := by
  rw [h.symm a b]
  cases c b a <;> simp [Ordering.swap]

theorem LawfulCmp.eq_iff {c : α → α → Ordering} (h : LawfulCmp c) {a b : α} :
    c a b = .eq ↔ c b a = .eq := by
  rw [h.symm a b]
  cases c b a <;> simp [Ordering.swap]

theorem LawfulCmp.lt_iff_not_gt_not_eq {c : α → α → Ordering} {a b : α} :
    c a b = .lt ↔ (c a b ≠ .gt ∧ c a b ≠ .eq) := by
  cases hab : c a b <;> simp

theorem LawfulCmp.eq_trans {c : α → α → Ordering} (h : LawfulCmp c) {a b d : α}
    (hab : c a b = .eq) (hbd : c b d = .eq) : c a d = .eq := by
  have h1 : c a d ≠ .gt :=
    h.le_trans (b := b) (by simp [hab]) (by simp [hbd])
  have h2 : c d a ≠ .gt :=
    h.le_trans (b := b) (by simp [h.eq_iff.mp hbd]) (by simp [h.eq_iff.mp hab])
  cases had : c a d with
  | eq => rfl
  | gt => exact absurd had h1
  | lt => exact absurd (h.gt_iff_lt.mpr had) h2

theorem LawfulCmp.lt_of_lt_of_eq {c : α → α → Ordering} (h : LawfulCmp c) {a b d : α}
    (hab : c a b = .lt) (hbd : c b d = .eq) : c a d = .lt := by
  refine LawfulCmp.lt_iff_not_gt_not_eq.mpr
    ⟨h.le_trans (b := b) (by simp [hab]) (by simp [hbd]), ?_⟩
  intro had
  have : c a b = .eq := h.eq_trans had (h.eq_iff.mp hbd)
  simp [hab] at this

theorem LawfulCmp.lt_of_eq_of_lt {c : α → α → Ordering} (h : LawfulCmp c) {a b d : α}
    (hab : c a b = .eq) (hbd : c b d = .lt) : c a d = .lt := by
  refine LawfulCmp.lt_iff_not_gt_not_eq.mpr
    ⟨h.le_trans (b := b) (by simp [hab]) (by simp [hbd]), ?_⟩
  intro had
  have : c b d = .eq := h.eq_trans (h.eq_iff.mp hab) had
  simp [hbd] at this

theorem LawfulCmp.lt_trans {c : α → α → Ordering} (h : LawfulCmp c) {a b d : α}
    (hab : c a b = .lt) (hbd : c b d = .lt) : c a d = .lt := by
  refine LawfulCmp.lt_iff_not_gt_not_eq.mpr
    ⟨h.le_trans (b := b) (by simp [hab]) (by simp [hbd]), ?_⟩
  intro had
  have : c d b ≠ .gt :=
    h.le_trans (b := a) (by simp [h.eq_iff.mp had]) (by simp [hab])
  exact this (h.gt_iff_lt.mpr hbd)

theorem natCmp_lawful : LawfulCmp natCmp := by
  constructor
  · intro a b
    unfold natCmp
    rcases Nat.lt_trichotomy a b with h | h | h
    · simp [h, Nat.lt_asymm h, Ordering.swap]
    · simp [h, Nat.lt_irrefl, Ordering.swap]
    · simp [h, Nat.lt_asymm h, Ordering.swap]
  · intro a b d hab hbd
    unfold natCmp at *
    rcases Nat.lt_trichotomy a b with h | h | h <;>
      rcases Nat.lt_trichotomy b d with h2 | h2 | h2 <;>
      simp_all <;> omega

theorem LawfulCmp.comap {c : β → β → Ordering} (h : LawfulCmp c) (k : α → β) :
    LawfulCmp (fun a b => c (k a) (k b)) := by
  constructor
  · intro a b; exact h.symm (k a) (k b)
  · intro a b d hab hbd; exact h.le_trans hab hbd

theorem lexCmp_symm {c : α → α → Ordering} (h : LawfulCmp c) :
    ∀ l1 l2, lexCmp c l1 l2 = (lexCmp c l2 l1).swap := by
  intro l1
  induction l1 with
  | nil => intro l2; cases l2 <;> rfl
  | cons a as ih =>
    intro l2
    cases l2 with
    | nil => rfl
    | cons b bs =>
      simp only [lexCmp, h.symm a b]
      cases c b a <;> simp [Ordering.swap, ih bs]

theorem lexCmp_le_trans {c : α → α → Ordering} (h : LawfulCmp c) :
    ∀ l1 l2 l3, lexCmp c l1 l2 ≠ .gt → lexCmp c l2 l3 ≠ .gt → lexCmp c l1 l3 ≠ .gt := by
  intro l1
  induction l1 with
  | nil =>
    intro l2 l3 h12 h23
    cases l2 with
    | nil => exact h23
    | cons b bs => cases l3 <;> simp [lexCmp]
  | cons a as ih =>
    intro l2 l3 h12 h23
    cases l2 with
    | nil => simp [lexCmp] at h12
    | cons b bs =>
      cases l3 with
      | nil => simp [lexCmp] at h23
      | cons d ds =>
        simp only [lexCmp] at h12 h23 ⊢
        cases hab : c a b with
        | gt => simp [hab] at h12
        | lt =>
          cases hbd : c b d with
          | gt => simp [hbd] at h23
          | lt => simp [h.lt_trans hab hbd]
          | eq => simp [h.lt_of_lt_of_eq hab hbd]
        | eq =>
          cases hbd : c b d with
          | gt => simp [hbd] at h23
          | lt => simp [h.lt_of_eq_of_lt hab hbd]
          | eq =>
            simp only [h.eq_trans hab hbd]
            simp [hab] at h12
            simp [hbd] at h23
            exact ih bs ds h12 h23

theorem lexCmp_lawful {c : α → α → Ordering} (h : LawfulCmp c) : LawfulCmp (lexCmp c) :=
  ⟨lexCmp_symm h, fun {l1 l2 l3} => lexCmp_le_trans h l1 l2 l3⟩

theorem thenCmp_lawful {f g : α → α → Ordering} (hf : LawfulCmp f) (hg : LawfulCmp g) :
    LawfulCmp (thenCmp f g) := by
  constructor
  · intro a b
    unfold thenCmp
    rw [hf.symm a b]
    cases f b a with
    | eq => simp [Ordering.swap, hg.symm a b]
    | lt => rfl
    | gt => rfl
  · intro a b d hab hbd
    unfold thenCmp at *
    cases h1 : f a b with
    | gt => simp [h1] at hab
    | lt =>
      cases h2 : f b d with
      | gt => simp [h2] at hbd
      | lt => simp [hf.lt_trans h1 h2]
      | eq => simp [hf.lt_of_lt_of_eq h1 h2]
    | eq =>
      cases h2 : f b d with
      | gt => simp [h2] at hbd
      | lt => simp [hf.lt_of_eq_of_lt h1 h2]
      | eq =>
        simp only [hf.eq_trans h1 h2]
        simp [h1] at hab
        simp [h2] at hbd
        exact hg.le_trans hab hbd

/- ### Model of `String.prototype.localeCompare`

The comparator in `sortNodes` falls back to `a.name.localeCompare(b.name)`.
Under the default locale (ICU root collation) this compares the strings
case-insensitively first (primary strength) and breaks ties by placing
lower case before upper case (tertiary strength).  We model exactly that on
the code points: primary key is the lower-cased string, tie-break walks the
original strings placing a lower-case character before a non-lower-case
one, then comparing code points. -/

/-- Tertiary key of a character: lower case sorts first, then code point. -/
def caseRank (c : Char) : Nat :=
  (if c.isLower then 0 else 1) * 4294967296 + c.toNat

/-- Primary (case-insensitive) comparison of two characters. -/
def charPrimCmp (c d : Char) : Ordering :=
  natCmp (charToLower c).toNat (charToLower d).toNat

/-- Tertiary comparison of two characters: lower case before upper case,
then code point order. -/
def charCaseCmp (c d : Char) : Ordering :=
  natCmp (caseRank c) (caseRank d)

/-- Model of `a.localeCompare(b)` (default locale, ASCII data): compare the
lower-cased strings lexicographically; on a tie compare the original strings
with lower case ordered before upper case. -/
def localeCompare (a b : JSStr) : Ordering :=
  thenCmp (fun x y => lexCmp charPrimCmp x y) (fun x y => lexCmp charCaseCmp x y) a b

theorem charPrimCmp_lawful : LawfulCmp charPrimCmp :=
  natCmp_lawful.comap (fun c => (charToLower c).toNat)

theorem charCaseCmp_lawful : LawfulCmp charCaseCmp :=
  natCmp_lawful.comap caseRank

theorem localeCompare_lawful : LawfulCmp localeCompare :=
  thenCmp_lawful
    ((lexCmp_lawful charPrimCmp_lawful).comap id)
    ((lexCmp_lawful charCaseCmp_lawful).comap id)

/- ### The file-tree data model

Source (`FileTree.tsx` and `FileBrowser.tsx`, identical copies):

    interface FileTreeNode {
      name: string;
      path: string;
      type: 'file' | 'directory';
      children?: Record<string, FileTreeNode>;
      file?: CloudCannonJavaScriptV1APIFile;
    }

During building, `children` is a string-keyed record whose keys always equal
the child's `name`; we embed it as an insertion-ordered list of nodes
(`Option` distinguishes the `file` nodes, whose `children` is `undefined`).
After `sortNodes`, `children` is an ordered array (`{}`, the empty object,
for file nodes — its `Object.values` is the empty array). -/

/-- A file record handed in by the host API.  Opaque to `buildFileTree`
beyond its `path`; the capability methods are irrelevant to the builder. -/
structure CCFile where
  path : JSStr
deriving DecidableEq

/-- `file` or `directory`. -/
inductive NodeType : Type where
  | file : NodeType
  | directory : NodeType
deriving DecidableEq

/-- The tree node during the building phase (`children` still a record). -/
inductive FileTreeNode : Type where
  | mk (name : JSStr) (path : JSStr) (type : NodeType)
       (children : Option (List FileTreeNode)) (file : Option CCFile)

def FileTreeNode.name : FileTreeNode → JSStr
  | .mk n _ _ _ _ => n

def FileTreeNode.path : FileTreeNode → JSStr
  | .mk _ p _ _ _ => p

def FileTreeNode.type : FileTreeNode → NodeType
  | .mk _ _ t _ _ => t

def FileTreeNode.children : FileTreeNode → Option (List FileTreeNode)
  | .mk _ _ _ ch _ => ch

def FileTreeNode.file : FileTreeNode → Option CCFile
  | .mk _ _ _ _ f => f

/-- The tree node after `sortNodes` (`children` now an ordered array;
the empty array for file nodes). -/
inductive SortedNode : Type where
  | mk (name : JSStr) (path : JSStr) (type : NodeType)
       (children : List SortedNode) (file : Option CCFile)

def SortedNode.name : SortedNode → JSStr
  | .mk n _ _ _ _ => n

def SortedNode.path : SortedNode → JSStr
  | .mk _ p _ _ _ => p

def SortedNode.type : SortedNode → NodeType
  | .mk _ _ t _ _ => t

def SortedNode.children : SortedNode → List SortedNode
  | .mk _ _ _ ch _ => ch

def SortedNode.file : SortedNode → Option CCFile
  | .mk _ _ _ _ f => f

/-- The comparator passed to `.sort` in `sortNodes`:

      if (a.type !== b.type) return a.type === 'directory' ? -1 : 1;
      return a.name.localeCompare(b.name);
-/
def compareNodes (a b : SortedNode) : Ordering :=
  if a.type ≠ b.type then (if a.type = .directory then .lt else .gt)
  else localeCompare a.name b.name

/-- "`a` need not come after `b`": the order produced by a consistent
JavaScript `Array.prototype.sort` against `compareNodes`. -/
def nodeRel (a b : SortedNode) : Prop := compareNodes a b ≠ .gt

instance : DecidableRel nodeRel := fun a b =>
  inferInstanceAs (Decidable (compareNodes a b ≠ .gt))

/-- Numeric key for the directory-before-file layer of the comparator. -/
def typeRank : NodeType → Nat
  | .directory => 0
  | .file => 1

theorem compareNodes_eq_thenCmp (a b : SortedNode) :
    compareNodes a b =
      thenCmp (fun x y => natCmp (typeRank x.type) (typeRank y.type))
        (fun x y => localeCompare x.name y.name) a b := by
  rcases ha : a.type <;> rcases hb : b.type <;>
    simp [compareNodes, thenCmp, typeRank, natCmp, ha, hb]

theorem compareNodes_lawful : LawfulCmp compareNodes := by
  have h := thenCmp_lawful
    (natCmp_lawful.comap (fun x : SortedNode => typeRank x.type))
    (localeCompare_lawful.comap (fun x : SortedNode => x.name))
  constructor
  · intro a b
    rw [compareNodes_eq_thenCmp, compareNodes_eq_thenCmp]
    exact h.symm a b
  · intro a b d hab hbd
    rw [compareNodes_eq_thenCmp] at *
    exact h.le_trans hab hbd

instance : IsTotal SortedNode nodeRel := by
  constructor
  intro a b
  unfold nodeRel
  by_cases hab : compareNodes a b = .gt
  · right
    rw [compareNodes_lawful.gt_iff_lt.mp hab]
    simp
  · left; exact hab

instance : IsTrans SortedNode nodeRel :=
  ⟨fun _ _ _ hab hbd => compareNodes_lawful.le_trans hab hbd⟩

/- ### `buildFileTree`

Source (`FileTree.tsx` lines 20–64 / `FileBrowser.tsx` lines 85–129):

    function buildFileTree(files) {
      const root: Record<string, FileTreeNode> = {};
      files.forEach((file) => {
        const parts = file.path.split('/').filter(Boolean);
        let current = root;
        parts.forEach((part, index) => {
          const isFile = index === parts.length - 1;
          const currentPath = parts.slice(0, index + 1).join('/');
          if (!current[part]) {
            current[part] = { name: part, path: currentPath,
              type: isFile ? 'file' : 'directory',
              children: isFile ? undefined : {},
              file: isFile ? file : undefined };
          }
          if (!isFile) {
            current = current[part].children as Record<string, FileTreeNode>;
          }
        });
      });
      ...sortNodes...
    }

The inner loop is embedded as a recursion over the remaining `parts`, with
`acc` the parts already consumed (so `currentPath` is the join of
`acc ++ [part]`, matching `parts.slice(0, index + 1).join('/')`) and the
mutation of the record reached by `current` expressed as rebuilding the
spine.  When the walk moves into a node whose `children` is `undefined`
(a previously registered *file* node used as a directory), the next loop
iteration evaluates `current[part]` on `undefined` and the whole call
throws a `TypeError`; we model the throw as `none`. -/

/-- `file.path.split('/').filter(Boolean)` — the path segments of a record
(`filter(Boolean)` drops empty strings). -/
def segsOf (file : CCFile) : List JSStr :=
  (splitOnChar '/' file.path).filter (fun s => s ≠ [])

/-- `current.find?` — the record lookup `current[part]` (keys equal names). -/
def findNode (m : List FileTreeNode) (key : JSStr) : Option FileTreeNode :=
  m.find? (fun n => n.name = key)

/-- In-place mutation of the `children` record of the node keyed `key`;
all other fields and the key order are untouched. -/
def setChildren : List FileTreeNode → JSStr → List FileTreeNode → List FileTreeNode
  | [], _, _ => []
  | n :: rest, key, newCh =>
    if n.name = key then .mk n.name n.path n.type (some newCh) n.file :: rest
    else n :: setChildren rest key newCh

/-- The `parts.forEach((part, index) => ...)` walk for one record.
`none` models the `TypeError` thrown when `current` has become `undefined`
(walking through a file node) and the next iteration dereferences it. -/
def insertParts (file : CCFile) (acc : List JSStr) :
    List JSStr → List FileTreeNode → Option (List FileTreeNode)
  | [], current => some current
  | part :: rest, current =>
    let isFile := rest = []
    let currentPath := joinChar '/' (acc ++ [part])
    match findNode current part with
    | none =>
      if isFile then
        some (current ++ [.mk part currentPath .file none (some file)])
      else
        match insertParts file (acc ++ [part]) rest [] with
        | some sub => some (current ++ [.mk part currentPath .directory (some sub) none])
        | none => none
    | some node =>
      if isFile then
        some current
      else
        match node.children with
        | some ch =>
          match insertParts file (acc ++ [part]) rest ch with
          | some ch2 => some (setChildren current part ch2)
          | none => none
        | none => none

/-- The `files.forEach(...)` loop building the raw record of nodes.  A
thrown `TypeError` aborts the whole call, which `foldlM` in `Option`
reproduces. -/
def buildRoot (files : List CCFile) : Option (List FileTreeNode) :=
  files.foldlM (fun root file => insertParts file [] (segsOf file) root) []

mutual
/-- `{...node, children: node.children ? sortNodes(node.children) : {}}` —
one node of the `.map` step of `sortNodes`, recursively sorting the
children record into an array (the empty array for file nodes). -/
def sortNode : FileTreeNode → SortedNode
  | .mk name path type ch file =>
    .mk name path type
      (match ch with
        | some m => (sortChildrenList m).insertionSort nodeRel
        | none => []) file
/-- `Object.values(nodes).map(...)` — the values of the record in insertion
order, each recursively sorted. -/
def sortChildrenList : List FileTreeNode → List SortedNode
  | [] => []
  | n :: rest => sortNode n :: sortChildrenList rest
end

/-- `sortNodes` (source lines 48–61): map the record to an array of
recursively sorted nodes, then `.sort` with `compareNodes`.
`Array.prototype.sort` is required to produce a stable order consistent
with the comparator; we embed it as stable insertion sort against
`nodeRel`. -/
def sortNodes (nodes : List FileTreeNode) : List SortedNode :=
  (sortChildrenList nodes).insertionSort nodeRel

/-- `buildFileTree` (source lines 20–64).  `none` models the `TypeError`
thrown when a registered file node is later walked through as a directory. -/
def buildFileTree (files : List CCFile) : Option (List SortedNode) :=
  (buildRoot files).map sortNodes

/- ### `getLanguageFromPath` (CodeEditor.tsx lines 15–54)

    const ext = path.split('.').pop()?.toLowerCase();
    const languageMap: Record<string, string> = { js: 'javascript', ... };
    return languageMap[ext || ''] || 'plaintext';

`split` never returns an empty array, so `.pop()` is the last piece (the
substring after the last `'.'`, or the whole path when there is no `'.'`).
The record lookup is embedded as an association-list lookup; every value of
the table is non-empty, so the `|| 'plaintext'` fallback fires exactly on a
missing key. -/

inductive SaveStatus : Type where
  | saved : SaveStatus
  | unsaved : SaveStatus
  | saving : SaveStatus
deriving DecidableEq

structure EditorState where
  content : JSStr
  originalContent : JSStr
  isLoading : Bool
  error : Option JSStr
  isSaving : Bool
  saveStatus : Option SaveStatus
deriving DecidableEq

/-- `const hasUnsavedChanges = content !== originalContent;` -/
def hasUnsavedChanges (s : EditorState) : Prop := s.content ≠ s.originalContent

instance : DecidablePred hasUnsavedChanges := fun s =>
  inferInstanceAs (Decidable (s.content ≠ s.originalContent))

/-- How an `async` handler's own promise settled: `rejected` is an uncaught
rejection propagating out of the handler. -/
inductive AsyncOutcome : Type where
  | resolved : AsyncOutcome
  | rejected (msg : JSStr) : AsyncOutcome
deriving DecidableEq

/-- `loadFileContent` (CodeEditor.tsx lines 76–92), run when a file is
selected.  `getResult` is the outcome of `await file.get()`.  The
`try/catch/finally` converts a failure into the `error` message string, so
the handler always resolves. -/
def loadFileContent (getResult : Except JSStr JSStr) (s : EditorState) :
    EditorState × AsyncOutcome :=
  let s1 := { s with isLoading := true, error := none }
  match getResult with
  | .ok c =>
    ({ s1 with content := c, originalContent := c,
               saveStatus := some .saved, isLoading := false }, .resolved)
  | .error m =>
    ({ s1 with error := some m, isLoading := false }, .resolved)

/-- `handleSave` (CodeEditor.tsx lines 112–140).  `file`/`hasOnSave` mirror
the `!file || !onSave` guard, `saveResult` is the outcome of
`await onSave(file, content)`.  The middle component of the result tells
whether the persistence callback was invoked at all.  The 2-second
`setTimeout` that later clears a `saved` badge is outside the model. -/
def handleSave (file : Option CCFile) (hasOnSave : Bool)
    (saveResult : Except JSStr Unit) (s : EditorState) :
    EditorState × Bool × AsyncOutcome :=
  if file = none ∨ hasOnSave = false ∨ ¬ hasUnsavedChanges s ∨ s.isSaving = true then
    (s, false, .resolved)
  else
    let s1 := { s with isSaving := true, saveStatus := some .saving, error := none }
    match saveResult with
    | .ok _ =>
      ({ s1 with originalContent := s1.content,
                 saveStatus := some .saved, isSaving := false }, true, .resolved)
    | .error m =>
      ({ s1 with error := some m,
                 saveStatus := some .unsaved, isSaving := false }, true, .resolved)

/- ### The host-API binding hook (useCloudCannonAPI.ts) -/

structure HookState where
  api : Bool
  isLoading : Bool
  error : Option JSStr
  files : List CCFile
  collections : List JSStr
deriving DecidableEq

/-- `refreshFiles` (useCloudCannonAPI.ts lines 294–308): guarded by
`if (!api) return;`, then `try { ... } catch { setError(...) } finally`,
so the handler always resolves. -/
def refreshFiles (filesResult : Except JSStr (List CCFile)) (s : HookState) :
    HookState × AsyncOutcome :=
  if s.api = false then (s, .resolved)
  else
    let s1 := { s with isLoading := true }
    match filesResult with
    | .ok fl => ({ s1 with files := fl, error := none, isLoading := false }, .resolved)
    | .error m => ({ s1 with error := some m, isLoading := false }, .resolved)

/-- `handleFileChange` (useCloudCannonAPI.ts lines 356–362), the handler
registered for the `change`/`create`/`delete` events:

    const handleFileChange = async () => {
      const fileList = await v1API.files();
      setFiles(fileList);
      const collections = await v1API.collections();
      setCollections(collections);
    };

There is no `try`/`catch`: a failed fetch leaves the handler's promise
rejected. -/
def hookHandleFileChange (filesResult : Except JSStr (List CCFile))
    (collectionsResult : Except JSStr (List JSStr)) (s : HookState) :
    HookState × AsyncOutcome :=
  match filesResult with
  | .error m => (s, .rejected m)
  | .ok fl =>
    match collectionsResult with
    | .error m => ({ s with files := fl }, .rejected m)
    | .ok cl => ({ s with files := fl, collections := cl }, .resolved)

/-- `handleFileChange` of `CollectionBrowser` (CollectionBrowser.tsx lines
26–42):

    const handleFileChange = async () => {
      const items = await collection.items();
      setItems(items);
    };

Again no `try`/`catch`. -/
def collectionHandleFileChange (itemsResult : Except JSStr (List CCFile))
    (items : Option (List CCFile)) : Option (List CCFile) × AsyncOutcome :=
  match itemsResult with
  | .error m => (items, .rejected m)
  | .ok l => (some l, .resolved)

/-- `initializeAPI` (useCloudCannonAPI.ts lines 327–382).  Inputs: whether a
router is available in React state, whether `useVersion('v1')` returns a
non-null API, and the outcomes of the two eager fetches.  The whole body is
wrapped in `try { ... } catch { setError(...) } finally`, so the handler
always resolves.  The middle component records whether the three
`change`/`create`/`delete` listeners were registered (equivalently, whether
a cleanup function was returned): registration is the last step before
returning, so it happens exactly when nothing before it threw. -/
def initializeAPI (router v1ok : Bool)
    (filesResult : Except JSStr (List CCFile))
    (collectionsResult : Except JSStr (List JSStr)) (s : HookState) :
    HookState × Bool × AsyncOutcome :=
  let s0 := { s with isLoading := true, error := none }
  if router = false then
    ({ s0 with error := some "CloudCannonAPI not found. Make sure this app is running within the CloudCannon editor.".data,
               isLoading := false }, false, .resolved)
  else if v1ok = false then
    ({ s0 with error := some "Failed to initialize CloudCannon API v1".data,
               isLoading := false }, false, .resolved)
  else
    let s1 := { s0 with api := true }
    match filesResult with
    | .error m => ({ s1 with error := some m, isLoading := false }, false, .resolved)
    | .ok fl =>
      match collectionsResult with
      | .error m => ({ s1 with files := fl, error := some m, isLoading := false }, false, .resolved)
      | .ok cl => ({ s1 with files := fl, collections := cl, isLoading := false }, true, .resolved)

/- ### Listener accounting (useCloudCannonAPI.ts)

The hook registers listeners in two `useEffect`s:

  * the discovery effect (lines 310–325): if `window.CloudCannonAPI` is
    absent it calls `document.addEventListener('cloudcannon:load', ...)`
    (no `{ once: true }` option) and returns **no** cleanup function;
  * the initialization effect (lines 327–392): on full success it calls
    `v1API.addEventListener` for `change`, `create` and `delete`, and its
    cleanup calls the matching `removeEventListener`s.

We track the registered listeners: a count for the document-level
`cloudcannon:load` listener and a multiset (list) of API event
registrations. -/

inductive APIEvent : Type where
  | change : APIEvent
  | create : APIEvent
  | delete : APIEvent
deriving DecidableEq

/-- The registered listeners.  API registrations are keyed by the identity
of the handler closure (a fresh `handleFileChange` closure per effect run,
identified here by a `Nat`) together with the event name, since
`removeEventListener` removes by handler identity. -/
structure Listeners where
  docLoadListeners : Nat
  apiListeners : List (Nat × APIEvent)
deriving DecidableEq

/-- Mount half of the discovery effect: register the `cloudcannon:load`
document listener when no router is on `window`. -/
def discoveryEffectMount (routerOnWindow : Bool) (L : Listeners) : Listeners :=
  if routerOnWindow then L
  else { L with docLoadListeners := L.docLoadListeners + 1 }

/-- Cleanup half of the discovery effect: the effect returns no cleanup
function, so unmounting removes nothing. -/
def discoveryEffectCleanup (L : Listeners) : Listeners := L

/-- `removeEventListener(e, handler)`: removes one matching registration. -/
def removeOneListener (h : Nat) (e : APIEvent) :
    List (Nat × APIEvent) → List (Nat × APIEvent)
  | [] => []
  | x :: rest => if x = (h, e) then rest else x :: removeOneListener h e rest

/-- Mount half of the initialization effect: `registered` is the Boolean
returned by `initializeAPI` (the three listeners are added exactly when
setup fully succeeded), `h` the identity of this run's `handleFileChange`
closure. -/
def initEffectMount (registered : Bool) (h : Nat) (L : Listeners) : Listeners :=
  if registered then
    { L with apiListeners := L.apiListeners ++ [(h, .change), (h, .create), (h, .delete)] }
  else L

/-- Cleanup half of the initialization effect: the returned cleanup removes
the three listeners for this run's handler; when setup failed no cleanup
function was produced and nothing is removed. -/
def initEffectCleanup (registered : Bool) (h : Nat) (L : Listeners) : Listeners :=
  if registered then
    { L with apiListeners :=
        removeOneListener h .delete (removeOneListener h .create
          (removeOneListener h .change L.apiListeners)) }
  else L

/-- One full mount/unmount cycle of the hook, with `h` the identity of the
`handleFileChange` closure created during this mount. -/
def mountUnmountCycle (routerOnWindow registered : Bool) (h : Nat) (L : Listeners) : Listeners :=
  initEffectCleanup registered h
    (discoveryEffectCleanup
      (initEffectMount registered h (discoveryEffectMount routerOnWindow L)))

/- ### Facts about `split` and `join` -/

/-- The segment lists fed to and produced by the builder: all segments
non-empty and free of the separator. -/
def segOK (sep : Char) (q : List JSStr) : Prop := ∀ s ∈ q, s ≠ [] ∧ sep ∉ s

instance : ∀ sep q, Decidable (segOK sep q) := fun sep q =>
  inferInstanceAs (Decidable (∀ s ∈ q, s ≠ [] ∧ sep ∉ s))

theorem joinChar_ne_nil {sep : Char} {q : List JSStr} (hok : segOK sep q) (hne : q ≠ []) :
    joinChar sep q ≠ [] := by
  cases q with
  | nil => exact absurd rfl hne
  | cons s t =>
    cases t with
    | nil => exact (hok s (by simp)).1
    | cons u v =>
      rw [show joinChar sep (s :: u :: v) = s ++ sep :: joinChar sep (u :: v) from rfl]
      rcases s <;> simp

/- ### Structural invariants of the raw forest -/

mutual
/-- Well-formedness of a raw node: a node without a `children` record is a
`file` node; a node with one is a `directory` node whose record is
non-empty and well-formed. -/
def goodNode : FileTreeNode → Prop
  | .mk _ _ t none _ => t = .file
  | .mk _ _ t (some m) _ => t = .directory ∧ m ≠ [] ∧ goodForest m
/-- Well-formedness of a raw record of nodes: distinct names (they are the
keys of one JavaScript record) and each node well-formed. -/
def goodForest : List FileTreeNode → Prop
  | [] => True
  | n :: rest => goodNode n ∧ (∀ x ∈ rest, n.name ≠ x.name) ∧ goodForest rest
end

mutual
/-- The name chains from a node to the leaves below it (a node without a
`children` record is itself a leaf). -/
def leavesNode : FileTreeNode → List (List JSStr)
  | .mk name _ _ none _ => [[name]]
  | .mk name _ _ (some m) _ => (leavesForest m).map (fun q => name :: q)
/-- The name chains from a record of nodes to the leaves below them. -/
def leavesForest : List FileTreeNode → List (List JSStr)
  | [] => []
  | n :: rest => leavesNode n ++ leavesForest rest
end

mutual
/-- Path correctness below prefix `pre`: each node's `path` is the
`'/'`-join of the names from the root down to it. -/
def pathOkNode (pre : List JSStr) : FileTreeNode → Prop
  | .mk name path _ none _ => path = joinChar '/' (pre ++ [name])
  | .mk name path _ (some m) _ =>
      path = joinChar '/' (pre ++ [name]) ∧ pathOkForest (pre ++ [name]) m
/-- Path correctness for every node of a record, below prefix `pre`. -/
def pathOkForest (pre : List JSStr) : List FileTreeNode → Prop
  | [] => True
  | n :: rest => pathOkNode pre n ∧ pathOkForest pre rest
end

theorem goodForest_good_mem {m : List FileTreeNode} (hg : goodForest m) :
    ∀ x ∈ m, goodNode x := by
  induction m with
  | nil => simp
  | cons n rest ih =>
    rw [goodForest] at hg
    intro x hx
    rcases List.mem_cons.mp hx with hx1 | hx1
    · subst hx1; exact hg.1
    · exact ih hg.2.2 x hx1

theorem pathOkForest_mem {pre : List JSStr} {m : List FileTreeNode}
    (hp : pathOkForest pre m) : ∀ x ∈ m, pathOkNode pre x := by
  induction m with
  | nil => simp
  | cons n rest ih =>
    rw [pathOkForest] at hp
    intro x hx
    rcases List.mem_cons.mp hx with hx1 | hx1
    · subst hx1; exact hp.1
    · exact ih hp.2 x hx1

theorem findNode_some {m : List FileTreeNode} {p : JSStr} {n : FileTreeNode}
    (h : findNode m p = some n) : n ∈ m ∧ n.name = p := by
  refine ⟨List.mem_of_find?_eq_some h, ?_⟩
  have := List.find?_some h
  simpa using this

theorem findNode_none {m : List FileTreeNode} {p : JSStr}
    (h : findNode m p = none) : ∀ n ∈ m, n.name ≠ p := by
  intro n hn
  have := List.find?_eq_none.mp h n hn
  simpa using this

theorem goodForest_append_singleton {m : List FileTreeNode} {n : FileTreeNode}
    (hg : goodForest m) (hn : goodNode n) (hfresh : ∀ x ∈ m, x.name ≠ n.name) :
    goodForest (m ++ [n]) := by
  induction m with
  | nil => simp [goodForest, hn]
  | cons x rest ih =>
    rw [goodForest] at hg
    rw [List.cons_append, goodForest]
    refine ⟨hg.1, ?_, ih hg.2.2 (fun y hy => hfresh y (List.mem_cons_of_mem x hy))⟩
    intro y hy
    rcases List.mem_append.mp hy with hy1 | hy1
    · exact hg.2.1 y hy1
    · rw [List.mem_singleton.mp hy1]
      exact fun h => hfresh x (List.mem_cons_self x rest) h

theorem pathOkForest_append_singleton {pre : List JSStr} {m : List FileTreeNode}
    {n : FileTreeNode} (hp : pathOkForest pre m) (hn : pathOkNode pre n) :
    pathOkForest pre (m ++ [n]) := by
  induction m with
  | nil => simp [pathOkForest, hn]
  | cons x rest ih =>
    rw [pathOkForest] at hp
    rw [List.cons_append, pathOkForest]
    exact ⟨hp.1, ih hp.2⟩

theorem setChildren_map_name (p : JSStr) (ch2 : List FileTreeNode) :
    ∀ m, (setChildren m p ch2).map FileTreeNode.name = m.map FileTreeNode.name := by
  intro m
  induction m with
  | nil => rfl
  | cons z zs ihz =>
    rw [setChildren]
    by_cases hz : z.name = p
    · rcases z with ⟨zn, zp, zt, zch, zf⟩
      simp only [FileTreeNode.name] at hz ⊢
      simp [hz, FileTreeNode.name]
    · simp only [hz, if_false, List.map_cons, ihz]

theorem insertParts_cons (file : CCFile) (acc : List JSStr) (part : JSStr)
    (rest : List JSStr) (current : List FileTreeNode) :
    insertParts file acc (part :: rest) current =
      match findNode current part with
      | none =>
        if rest = [] then
          some (current ++
            [.mk part (joinChar '/' (acc ++ [part])) .file none (some file)])
        else
          match insertParts file (acc ++ [part]) rest [] with
          | some sub => some (current ++
              [.mk part (joinChar '/' (acc ++ [part])) .directory (some sub) none])
          | none => none
      | some node =>
        if rest = [] then some current
        else
          match node.children with
          | some ch =>
            match insertParts file (acc ++ [part]) rest ch with
            | some ch2 => some (setChildren current part ch2)
            | none => none
          | none => none := rfl

mutual
/-- The full-depth root-to-file path concatenations below a sorted node,
`'/'`-joining the `name` fields from the root down to each `file` node. -/
def filePathsNode (pre : List JSStr) : SortedNode → List JSStr
  | .mk name _ .file _ _ => [joinChar '/' (pre ++ [name])]
  | .mk name _ .directory ch _ => filePathsList (pre ++ [name]) ch
/-- `filePathsNode` over a list of siblings. -/
def filePathsList (pre : List JSStr) : List SortedNode → List JSStr
  | [] => []
  | n :: rest => filePathsNode pre n ++ filePathsList pre rest
end

theorem filePathsList_perm (pre : List JSStr) {l1 l2 : List SortedNode}
    (h : List.Perm l1 l2) :
    List.Perm (filePathsList pre l1) (filePathsList pre l2) := by
  induction h with
  | nil => exact List.Perm.refl _
  | cons x _ ihp =>
    rw [filePathsList, filePathsList]
    exact ihp.append_left _
  | swap x y l =>
    rw [filePathsList, filePathsList, filePathsList, filePathsList,
      ← List.append_assoc, ← List.append_assoc]
    exact (List.perm_append_comm).append_right _
  | trans _ _ ih1 ih2 => exact ih1.trans ih2

/-- The node comparator never puts a file before a directory, and orders
same-kind siblings by the `localeCompare` model on names. -/
def sibRel (a b : SortedNode) : Prop :=
  (a.type = .directory ∧ b.type = .file) ∨
  (a.type = b.type ∧ localeCompare a.name b.name ≠ .gt)

theorem sibRel_of_nodeRel {a b : SortedNode} (h : nodeRel a b) : sibRel a b := by
  unfold nodeRel compareNodes at h
  by_cases ht : a.type = b.type
  · right
    refine ⟨ht, ?_⟩
    simpa [ht] using h
  · left
    rcases ha : a.type <;> rcases hb : b.type
    · exact absurd (ha.trans hb.symm) ht
    · exfalso
      simp [ha, hb] at h ht
    · exact ⟨rfl, rfl⟩
    · exact absurd (ha.trans hb.symm) ht

mutual
/-- Sibling ordering (directories first, then case-aware lexicographic
order on names) holds at this node and recursively below it. -/
def orderedNode : SortedNode → Prop
  | .mk _ _ _ ch _ => List.Pairwise sibRel ch ∧ orderedList ch
/-- `orderedNode` for every node of a list. -/
def orderedList : List SortedNode → Prop
  | [] => True
  | n :: rest => orderedNode n ∧ orderedList rest
end

/-- Sibling ordering at every level of a sorted forest. -/
def orderedForest (l : List SortedNode) : Prop :=
  List.Pairwise sibRel l ∧ orderedList l

theorem orderedList_iff_forall : ∀ (l : List SortedNode),
    orderedList l ↔ ∀ x ∈ l, orderedNode x := by
  intro l
  induction l with
  | nil => simp [orderedList]
  | cons n rest ih =>
    rw [orderedList, ih]
    simp

mutual
theorem orderedNode_sortNode : ∀ (n : FileTreeNode), orderedNode (sortNode n)
  | .mk name path t ch f => by
    rw [sortNode.eq_def]
    cases ch with
    | none =>
      rw [orderedNode]
      exact ⟨List.Pairwise.nil, trivial⟩
    | some m =>
      rw [orderedNode]
      constructor
      · exact (List.sorted_insertionSort nodeRel (sortChildrenList m)).imp
          (fun h => sibRel_of_nodeRel h)
      · rw [orderedList_iff_forall]
        intro x hx
        have hx2 : x ∈ sortChildrenList m :=
          (List.perm_insertionSort nodeRel (sortChildrenList m)).mem_iff.mp hx
        have : ∀ y ∈ sortChildrenList m, orderedNode y := by
          rw [← orderedList_iff_forall]
          exact orderedList_sortChildren m
        exact this x hx2
theorem orderedList_sortChildren : ∀ (m : List FileTreeNode),
    orderedList (sortChildrenList m)
  | [] => by rw [sortChildrenList]; trivial
  | n :: rest => by
    rw [sortChildrenList, orderedList]
    exact ⟨orderedNode_sortNode n, orderedList_sortChildren rest⟩
end

theorem orderedForest_sortNodes (m : List FileTreeNode) :
    orderedForest (sortNodes m) := by
  rw [sortNodes, orderedForest]
  constructor
  · exact (List.sorted_insertionSort nodeRel (sortChildrenList m)).imp
      (fun h => sibRel_of_nodeRel h)
  · rw [orderedList_iff_forall]
    intro x hx
    have hx2 : x ∈ sortChildrenList m :=
      (List.perm_insertionSort nodeRel (sortChildrenList m)).mem_iff.mp hx
    exact (orderedList_iff_forall (sortChildrenList m)).mp
      (orderedList_sortChildren m) x hx2

mutual
theorem filePathsNode_sortNode : ∀ (n : FileTreeNode) (pre : List JSStr), goodNode n →
    List.Perm (filePathsNode pre (sortNode n))
      ((leavesNode n).map (fun q => joinChar '/' (pre ++ q)))
  | .mk name path t none f, pre, hgood => by
    rw [goodNode] at hgood
    subst hgood
    rw [sortNode.eq_def, leavesNode, filePathsNode]
    simp
  | .mk name path t (some m) f, pre, hgood => by
    rw [goodNode] at hgood
    rcases hgood with ⟨ht, _, hgf⟩
    subst ht
    rw [sortNode.eq_def, leavesNode, filePathsNode]
    have h1 := filePathsList_perm (pre ++ [name])
      (List.perm_insertionSort nodeRel (sortChildrenList m))
    have h3 := h1.trans (filePathsList_sortChildren m (pre ++ [name]) hgf)
    rw [List.map_map]
    have hfun : ((fun q => joinChar '/' (pre ++ q)) ∘ (fun q => name :: q)) =
        fun q => joinChar '/' ((pre ++ [name]) ++ q) := by
      funext q
      simp
    rw [hfun]
    exact h3
theorem filePathsList_sortChildren : ∀ (m : List FileTreeNode) (pre : List JSStr),
    goodForest m →
    List.Perm (filePathsList pre (sortChildrenList m))
      ((leavesForest m).map (fun q => joinChar '/' (pre ++ q)))
  | [], pre, _ => by
    rw [sortChildrenList, leavesForest, filePathsList]
    simp
  | n :: rest, pre, hg => by
    rw [goodForest] at hg
    rw [sortChildrenList, leavesForest, filePathsList, List.map_append]
    exact (filePathsNode_sortNode n pre hg.1).append
      (filePathsList_sortChildren rest pre hg.2.2)
end

mutual
/-- The structural invariant of a sorted node recorded by C9: `path` is the
`'/'`-join of the names from the root, file nodes have no children, and
sibling names are pairwise distinct. -/
def sortedInv (pre : List JSStr) : SortedNode → Prop
  | .mk name path t ch _ =>
      path = joinChar '/' (pre ++ [name]) ∧
      (t = .file → ch = []) ∧
      (ch.map SortedNode.name).Nodup ∧
      sortedInvList (pre ++ [name]) ch
/-- `sortedInv` for every node of a list. -/
def sortedInvList (pre : List JSStr) : List SortedNode → Prop
  | [] => True
  | n :: rest => sortedInv pre n ∧ sortedInvList pre rest
end

/-- The C9 invariant over a whole sorted forest, root names included. -/
def sortedInvForest (t : List SortedNode) : Prop :=
  (t.map SortedNode.name).Nodup ∧ sortedInvList [] t

theorem sortedInvList_iff_forall : ∀ (pre : List JSStr) (l : List SortedNode),
    sortedInvList pre l ↔ ∀ x ∈ l, sortedInv pre x := by
  intro pre l
  induction l with
  | nil => simp [sortedInvList]
  | cons n rest ih =>
    rw [sortedInvList, ih]
    simp

theorem sortNode_name (x : FileTreeNode) : (sortNode x).name = x.name := by
  rcases x with ⟨name, path, t, ch, f⟩
  rw [sortNode.eq_def]
  rfl

theorem sortChildrenList_map_name (m : List FileTreeNode) :
    (sortChildrenList m).map SortedNode.name = m.map FileTreeNode.name := by
  induction m with
  | nil => rfl
  | cons n rest ih =>
    rw [sortChildrenList, List.map_cons, List.map_cons, ih, sortNode_name]

theorem goodForest_nodup_names {m : List FileTreeNode} (hg : goodForest m) :
    (m.map FileTreeNode.name).Nodup := by
  induction m with
  | nil => exact List.nodup_nil
  | cons n rest ih =>
    rw [goodForest] at hg
    rw [List.map_cons]
    refine List.Nodup.cons ?_ (ih hg.2.2)
    intro hmem
    rcases List.mem_map.mp hmem with ⟨x, hx, hxn⟩
    exact hg.2.1 x hx hxn.symm

theorem sortedNodes_nodup_names {m : List FileTreeNode} (hg : goodForest m) :
    (((sortChildrenList m).insertionSort nodeRel).map SortedNode.name).Nodup := by
  have hperm := (List.perm_insertionSort nodeRel (sortChildrenList m)).map SortedNode.name
  rw [hperm.nodup_iff, sortChildrenList_map_name]
  exact goodForest_nodup_names hg

mutual
theorem sortedInv_sortNode : ∀ (n : FileTreeNode) (pre : List JSStr),
    goodNode n → pathOkNode pre n → sortedInv pre (sortNode n)
  | .mk name path t none f, pre, hg, hp => by
    rw [goodNode] at hg
    rw [pathOkNode] at hp
    subst hg
    rw [sortNode.eq_def, sortedInv]
    exact ⟨hp, fun _ => rfl, List.nodup_nil, trivial⟩
  | .mk name path t (some m) f, pre, hg, hp => by
    rw [goodNode] at hg
    rw [pathOkNode] at hp
    rcases hg with ⟨ht, _, hgf⟩
    subst ht
    rw [sortNode.eq_def, sortedInv]
    refine ⟨hp.1, fun hcon => absurd hcon (by simp), sortedNodes_nodup_names hgf, ?_⟩
    rw [sortedInvList_iff_forall]
    intro x hx
    have hx2 : x ∈ sortChildrenList m :=
      (List.perm_insertionSort nodeRel (sortChildrenList m)).mem_iff.mp hx
    exact (sortedInvList_iff_forall (pre ++ [name]) (sortChildrenList m)).mp
      (sortedInvList_sortChildren m (pre ++ [name]) hgf hp.2) x hx2
theorem sortedInvList_sortChildren : ∀ (m : List FileTreeNode) (pre : List JSStr),
    goodForest m → pathOkForest pre m → sortedInvList pre (sortChildrenList m)
  | [], _, _, _ => by rw [sortChildrenList]; trivial
  | n :: rest, pre, hg, hp => by
    rw [goodForest] at hg
    rw [pathOkForest] at hp
    rw [sortChildrenList, sortedInvList]
    exact ⟨sortedInv_sortNode n pre hg.1 hp.1,
      sortedInvList_sortChildren rest pre hg.2.2 hp.2⟩
end

theorem sortedInvForest_sortNodes {m : List FileTreeNode}
    (hg : goodForest m) (hp : pathOkForest [] m) :
    sortedInvForest (sortNodes m) := by
  rw [sortNodes, sortedInvForest]
  refine ⟨sortedNodes_nodup_names hg, ?_⟩
  rw [sortedInvList_iff_forall]
  intro x hx
  have hx2 : x ∈ sortChildrenList m :=
    (List.perm_insertionSort nodeRel (sortChildrenList m)).mem_iff.mp hx
  exact (sortedInvList_iff_forall [] (sortChildrenList m)).mp
    (sortedInvList_sortChildren m [] hg hp) x hx2

/- ### Unconditional preservation: any successful build is well-formed -/

theorem setChildren_length (p : JSStr) (ch2 : List FileTreeNode) :
    ∀ m, (setChildren m p ch2).length = m.length := by
  intro m
  induction m with
  | nil => rfl
  | cons x rest ih =>
    rw [setChildren]
    by_cases hx : x.name = p
    · simp [hx]
    · simp [hx, ih]

theorem insertParts_length_le (file : CCFile) :
    ∀ (parts acc : List JSStr) (m m' : List FileTreeNode),
      insertParts file acc parts m = some m' → m.length ≤ m'.length := by
  intro parts
  induction parts with
  | nil =>
    intro acc m m' heq
    rw [insertParts] at heq
    simp only [Option.some.injEq] at heq
    simp [heq]
  | cons p rest ih =>
    intro acc m m' heq
    rw [insertParts_cons] at heq
    rcases hfind : findNode m p with _ | n <;> simp only [hfind] at heq
    · by_cases hrest : rest = []
      · simp only [if_pos hrest, Option.some.injEq] at heq
        simp [← heq]
      · simp only [if_neg hrest] at heq
        rcases hsub : insertParts file (acc ++ [p]) rest [] with _ | sub
        · rw [hsub] at heq
          exact absurd heq (by simp)
        · rw [hsub] at heq
          simp only [Option.some.injEq] at heq
          simp [← heq]
    · by_cases hrest : rest = []
      · simp only [if_pos hrest, Option.some.injEq] at heq
        simp [heq]
      · simp only [if_neg hrest] at heq
        rcases hch : n.children with _ | ch
        · simp only [hch] at heq
          exact absurd heq (by simp)
        · simp only [hch] at heq
          rcases hsub : insertParts file (acc ++ [p]) rest ch with _ | ch2
          · rw [hsub] at heq
            exact absurd heq (by simp)
          · rw [hsub] at heq
            simp only [Option.some.injEq] at heq
            rw [← heq, setChildren_length]

theorem setChildren_preserves {p : JSStr} {ch2 : List FileTreeNode}
    (hg2 : goodForest ch2) (hne2 : ch2 ≠ []) :
    ∀ (m : List FileTreeNode) (pre : List JSStr) (n : FileTreeNode) (ch : List FileTreeNode),
      goodForest m → pathOkForest pre m →
      pathOkForest (pre ++ [p]) ch2 →
      findNode m p = some n → n.children = some ch →
      goodForest (setChildren m p ch2) ∧ pathOkForest pre (setChildren m p ch2) := by
  intro m
  induction m with
  | nil => intro pre n ch _ _ _ hfind; simp [findNode] at hfind
  | cons x rest ih =>
    intro pre n ch hg hpath hp2 hfind hch
    rw [goodForest] at hg
    rw [pathOkForest] at hpath
    by_cases hxp : x.name = p
    · have hfx : findNode (x :: rest) p = some x :=
        List.find?_cons_of_pos rest (by simp [hxp])
      have hnx : n = x := Option.some_inj.mp (hfind.symm.trans hfx)
      subst hnx
      rcases n with ⟨xn, xpath, xt, xch, xf⟩
      have hxn : xn = p := by simpa [FileTreeNode.name] using hxp
      have hxch : xch = some ch := by simpa [FileTreeNode.children] using hch
      subst hxch
      subst hxn
      have hsc : setChildren (FileTreeNode.mk xn xpath xt (some ch) xf :: rest) xn ch2 =
          FileTreeNode.mk xn xpath xt (some ch2) xf :: rest := by
        rw [setChildren]
        simp [FileTreeNode.name, FileTreeNode.path, FileTreeNode.type, FileTreeNode.file]
      rw [hsc]
      have hgx := hg.1
      rw [goodNode] at hgx
      constructor
      · rw [goodForest]
        exact ⟨by rw [goodNode]; exact ⟨hgx.1, hne2, hg2⟩,
          by simpa [FileTreeNode.name] using hg.2.1, hg.2.2⟩
      · rw [pathOkForest]
        have hpx := hpath.1
        rw [pathOkNode] at hpx
        refine ⟨?_, hpath.2⟩
        rw [pathOkNode]
        exact ⟨hpx.1, hp2⟩
    · have hfx : findNode (x :: rest) p = findNode rest p :=
        List.find?_cons_of_neg rest (by simp [hxp])
      rw [hfx] at hfind
      have hsc : setChildren (x :: rest) p ch2 = x :: setChildren rest p ch2 := by
        rw [setChildren]
        simp [hxp]
      rw [hsc]
      rcases ih pre n ch hg.2.2 hpath.2 hp2 hfind hch with ⟨ihg, ihp⟩
      constructor
      · rw [goodForest]
        refine ⟨hg.1, ?_, ihg⟩
        intro y hy
        have hyname : y.name ∈ rest.map FileTreeNode.name := by
          rw [← setChildren_map_name p ch2 rest]
          exact List.mem_map_of_mem FileTreeNode.name hy
        rcases List.mem_map.mp hyname with ⟨z, hz, hzy⟩
        rw [← hzy]
        exact hg.2.1 z hz
      · rw [pathOkForest]
        exact ⟨hpath.1, ihp⟩

theorem insertParts_into_nil_ne_nil (file : CCFile) (acc : List JSStr)
    (p : JSStr) (rest : List JSStr) {m' : List FileTreeNode}
    (heq : insertParts file acc (p :: rest) [] = some m') : m' ≠ [] := by
  rw [insertParts_cons] at heq
  simp only [findNode, List.find?] at heq
  by_cases hrest : rest = []
  · simp only [if_pos hrest, Option.some.injEq] at heq
    simp [← heq]
  · simp only [if_neg hrest] at heq
    rcases hsub : insertParts file (acc ++ [p]) rest [] with _ | sub
    · rw [hsub] at heq
      exact absurd heq (by simp)
    · rw [hsub] at heq
      simp only [Option.some.injEq] at heq
      simp [← heq]

theorem insertParts_preserves (file : CCFile) :
    ∀ (parts acc : List JSStr) (m m' : List FileTreeNode),
      insertParts file acc parts m = some m' →
      goodForest m → pathOkForest acc m →
      goodForest m' ∧ pathOkForest acc m' := by
  intro parts
  induction parts with
  | nil =>
    intro acc m m' heq hg hpath
    rw [insertParts] at heq
    simp only [Option.some.injEq] at heq
    subst heq
    exact ⟨hg, hpath⟩
  | cons p rest ih =>
    intro acc m m' heq hg hpath
    rw [insertParts_cons] at heq
    rcases hfind : findNode m p with _ | n <;> simp only [hfind] at heq
    · by_cases hrest : rest = []
      · simp only [if_pos hrest, Option.some.injEq] at heq
        subst heq
        constructor
        · exact goodForest_append_singleton hg (by rw [goodNode])
            (fun x hx => findNode_none hfind x hx)
        · exact pathOkForest_append_singleton hpath (by rw [pathOkNode])
      · simp only [if_neg hrest] at heq
        rcases hsub : insertParts file (acc ++ [p]) rest [] with _ | sub
        · rw [hsub] at heq
          exact absurd heq (by simp)
        rw [hsub] at heq
        simp only [Option.some.injEq] at heq
        subst heq
        have hsubp := ih (acc ++ [p]) [] sub hsub (by rw [goodForest]; trivial)
          (by rw [pathOkForest]; trivial)
        have hsubne : sub ≠ [] := by
          rcases hr : rest with _ | ⟨u, v⟩
          · exact absurd hr hrest
          · rw [hr] at hsub
            exact insertParts_into_nil_ne_nil file (acc ++ [p]) u v hsub
        constructor
        · refine goodForest_append_singleton hg ?_ (fun x hx => findNode_none hfind x hx)
          rw [goodNode]
          exact ⟨rfl, hsubne, hsubp.1⟩
        · refine pathOkForest_append_singleton hpath ?_
          rw [pathOkNode]
          exact ⟨rfl, hsubp.2⟩
    · by_cases hrest : rest = []
      · simp only [if_pos hrest, Option.some.injEq] at heq
        subst heq
        exact ⟨hg, hpath⟩
      · simp only [if_neg hrest] at heq
        rcases hch : n.children with _ | ch
        · simp only [hch] at heq
          exact absurd heq (by simp)
        simp only [hch] at heq
        rcases hsub : insertParts file (acc ++ [p]) rest ch with _ | ch2
        · rw [hsub] at heq
          exact absurd heq (by simp)
        rw [hsub] at heq
        simp only [Option.some.injEq] at heq
        subst heq
        have hnmem := (findNode_some hfind).1
        have hgn := goodForest_good_mem hg n hnmem
        have hpn := pathOkForest_mem hpath n hnmem
        rcases n with ⟨nn, npath, nt, nch, nf⟩
        have hnn : nn = p := by simpa [FileTreeNode.name] using (findNode_some hfind).2
        have hnch : nch = some ch := by simpa [FileTreeNode.children] using hch
        subst hnch hnn
        rw [goodNode] at hgn
        rw [pathOkNode] at hpn
        have hchp := ih (acc ++ [nn]) ch ch2 hsub hgn.2.2 hpn.2
        have hch2ne : ch2 ≠ [] := by
          intro hcon
          have hle := insertParts_length_le file rest (acc ++ [nn]) ch ch2 hsub
          rw [hcon] at hle
          simp at hle
          exact hgn.2.1 hle
        exact setChildren_preserves hchp.1 hch2ne m acc
          (FileTreeNode.mk nn npath nt (some ch) nf) ch hg hpath hchp.2 hfind rfl

theorem buildRoot_preserves :
    ∀ (files : List CCFile) (m m' : List FileTreeNode),
      files.foldlM (fun root file => insertParts file [] (segsOf file) root) m = some m' →
      goodForest m → pathOkForest [] m →
      goodForest m' ∧ pathOkForest [] m' := by
  intro files
  induction files with
  | nil =>
    intro m m' heq hg hp
    simp at heq
    subst heq
    exact ⟨hg, hp⟩
  | cons f fs ih =>
    intro m m' heq hg hp
    rw [List.foldlM_cons] at heq
    rcases h1 : insertParts f [] (segsOf f) m with _ | m1 <;> simp only [h1] at heq
    · simp at heq
    · have hstep := insertParts_preserves f (segsOf f) [] m m1 h1 hg hp
      exact ih m1 m' (by simpa using heq) hstep.1 hstep.2

/- ### Single-chain forests: the file/directory prefix conflict -/

/-- C3: In every forest returned by `buildFileTree`, at every level the
siblings are ordered with all directory nodes before all file nodes, and
within each kind by case-aware lexicographic comparison of `name`; and for
input paths `["a/b.md", "a/c.md", "d.md"]` the root has exactly two
entries — directory `a` (containing files `b.md` then `c.md`) ordered
before file `d.md`. -/
theorem buildFileTree_siblings_ordered :
    (∀ (files : List CCFile) (t : List SortedNode),
      buildFileTree files = some t → orderedForest t) ∧
    buildFileTree [⟨"a/b.md".data⟩, ⟨"a/c.md".data⟩, ⟨"d.md".data⟩] =
      some [.mk "a".data "a".data .directory
              [.mk "b.md".data "a/b.md".data .file [] (some ⟨"a/b.md".data⟩),
               .mk "c.md".data "a/c.md".data .file [] (some ⟨"a/c.md".data⟩)] none,
            .mk "d.md".data "d.md".data .file [] (some ⟨"d.md".data⟩)] := by
  constructor
  · intro files t heq
    rw [buildFileTree] at heq
    rcases hroot : buildRoot files with _ | m <;> rw [hroot] at heq
    · simp at heq
    · simp only [Option.map_some'] at heq
      rw [← Option.some_inj.mp heq]
      exact orderedForest_sortNodes m
  · rfl

/-- Witness for C3: the ordering invariant evaluated on the concrete
example forest. -/
theorem buildFileTree_siblings_ordered_witness :
    orderedForest [.mk "a".data "a".data .directory
        [.mk "b.md".data "a/b.md".data .file [] (some ⟨"a/b.md".data⟩),
         .mk "c.md".data "a/c.md".data .file [] (some ⟨"a/c.md".data⟩)] none,
      .mk "d.md".data "d.md".data .file [] (some ⟨"d.md".data⟩)] :=
  buildFileTree_siblings_ordered.1 [⟨"a/b.md".data⟩, ⟨"a/c.md".data⟩, ⟨"d.md".data⟩] _
    buildFileTree_siblings_ordered.2

/-- C4: `buildFileTree` is a pure, deterministic function of its input
list: two runs on the same list produce structurally equal results (the
embedding is a function, so this also records that the translation admits
no hidden state). -/
theorem buildFileTree_deterministic :
    ∀ (files : List CCFile) (t1 t2 : List SortedNode),
      buildFileTree files = some t1 → buildFileTree files = some t2 → t1 = t2 := by
  intro files t1 t2 h1 h2
  rw [h1] at h2
  exact Option.some_inj.mp h2

/-- Witness for C4 at a concrete input. -/
theorem buildFileTree_deterministic_witness :
    ([SortedNode.mk "a".data "a".data .file [] (some ⟨"a".data⟩)] :
      List SortedNode) = [SortedNode.mk "a".data "a".data .file [] (some ⟨"a".data⟩)] :=
  buildFileTree_deterministic [⟨"a".data⟩] _ _ rfl rfl

/-- C9: in every forest returned by `buildFileTree`, each node's `path` is
the `'/'`-join of the `name` fields along the root-to-node chain, sibling
names are pairwise distinct at every level, and no file node has any
children. -/
theorem buildFileTree_structural_invariants :
    ∀ (files : List CCFile) (t : List SortedNode),
      buildFileTree files = some t → sortedInvForest t := by
  intro files t heq
  rw [buildFileTree] at heq
  rcases hroot : buildRoot files with _ | m <;> rw [hroot] at heq
  · simp at heq
  · simp only [Option.map_some'] at heq
    rw [buildRoot] at hroot
    have hpres := buildRoot_preserves files [] m hroot
      (by rw [goodForest]; trivial) (by rw [pathOkForest]; trivial)
    rw [← Option.some_inj.mp heq]
    exact sortedInvForest_sortNodes hpres.1 hpres.2

/-- Witness for C9: the structural invariant evaluated on a concrete
forest. -/
theorem buildFileTree_structural_invariants_witness :
    sortedInvForest [.mk "a".data "a".data .directory
        [.mk "b".data "a/b".data .file [] (some ⟨"a/b".data⟩)] none] :=
  buildFileTree_structural_invariants [⟨"a/b".data⟩] _ rfl

/-- C7: for the editor panel's save action, success of the persistence
callback moves the state to `Saved` and resets the last-saved baseline to
the saved content; failure returns the state to `Unsaved`, surfaces the
error message, and preserves the in-progress edit buffer unchanged. -/
theorem handleSave_success_failure :
    ∀ (f : CCFile) (s : EditorState) (m : JSStr),
      hasUnsavedChanges s → s.isSaving = false →
      ((handleSave (some f) true (Except.ok ()) s).1.saveStatus = some .saved ∧
       (handleSave (some f) true (Except.ok ()) s).1.originalContent = s.content ∧
       (handleSave (some f) true (Except.ok ()) s).1.content = s.content) ∧
      ((handleSave (some f) true (Except.error m) s).1.saveStatus = some .unsaved ∧
       (handleSave (some f) true (Except.error m) s).1.error = some m ∧
       (handleSave (some f) true (Except.error m) s).1.content = s.content ∧
       (handleSave (some f) true (Except.error m) s).1.originalContent = s.originalContent) := by
  intro f s m hch hsv
  have hguard : ¬ ((some f : Option CCFile) = none ∨ (true : Bool) = false ∨
      ¬ hasUnsavedChanges s ∨ s.isSaving = true) := by
    simp [hch, hsv]
  constructor
  · rw [handleSave, if_neg hguard]
    exact ⟨rfl, rfl, rfl⟩
  · rw [handleSave, if_neg hguard]
    exact ⟨rfl, rfl, rfl, rfl⟩

/-- Witness for C7 at a concrete editor state. -/
theorem handleSave_success_failure_witness :
    ((handleSave (some ⟨"f".data⟩) true (Except.ok ())
        ⟨"Y".data, "X".data, false, none, false, some .unsaved⟩).1.saveStatus =
          some .saved ∧
     (handleSave (some ⟨"f".data⟩) true (Except.ok ())
        ⟨"Y".data, "X".data, false, none, false, some .unsaved⟩).1.originalContent =
          "Y".data ∧
     (handleSave (some ⟨"f".data⟩) true (Except.ok ())
        ⟨"Y".data, "X".data, false, none, false, some .unsaved⟩).1.content = "Y".data) ∧
    ((handleSave (some ⟨"f".data⟩) true (Except.error "fail".data)
        ⟨"Y".data, "X".data, false, none, false, some .unsaved⟩).1.saveStatus =
          some .unsaved ∧
     (handleSave (some ⟨"f".data⟩) true (Except.error "fail".data)
        ⟨"Y".data, "X".data, false, none, false, some .unsaved⟩).1.error =
          some "fail".data ∧
     (handleSave (some ⟨"f".data⟩) true (Except.error "fail".data)
        ⟨"Y".data, "X".data, false, none, false, some .unsaved⟩).1.content = "Y".data ∧
     (handleSave (some ⟨"f".data⟩) true (Except.error "fail".data)
        ⟨"Y".data, "X".data, false, none, false, some .unsaved⟩).1.originalContent =
          "X".data) :=
  handleSave_success_failure ⟨"f".data⟩
    ⟨"Y".data, "X".data, false, none, false, some .unsaved⟩ "fail".data
    (by decide) rfl

/-- C8: while a save is in flight (`isSaving`), invoking the save action is
a no-op and the persistence callback is not invoked; save is likewise a
no-op when the buffer equals the last-saved baseline. -/
theorem handleSave_saving_gate :
    (∀ (f : Option CCFile) (b : Bool) (r : Except JSStr Unit) (s : EditorState),
      s.isSaving = true → handleSave f b r s = (s, false, .resolved)) ∧
    (∀ (f : Option CCFile) (b : Bool) (r : Except JSStr Unit) (s : EditorState),
      s.content = s.originalContent → handleSave f b r s = (s, false, .resolved)) := by
  constructor
  · intro f b r s hsv
    rw [handleSave, if_pos (by simp [hsv])]
  · intro f b r s heqc
    rw [handleSave, if_pos (by simp [hasUnsavedChanges, heqc])]

/-- Witness for C8 at a concrete saving-in-flight state. -/
theorem handleSave_saving_gate_witness :
    handleSave (some ⟨"f".data⟩) true (Except.ok ())
        ⟨"Y".data, "X".data, false, none, true, some .saving⟩ =
      (⟨"Y".data, "X".data, false, none, true, some .saving⟩, false, .resolved) :=
  handleSave_saving_gate.1 (some ⟨"f".data⟩) true (Except.ok ())
    ⟨"Y".data, "X".data, false, none, true, some .saving⟩ rfl

/-- C5 counterexample: the event-driven refetch handlers await host calls
with no `try`/`catch`, so a failed fetch leaves the handler's own promise
rejected — an uncaught rejection, contradicting the claim that every
failure of an asynchronous host call is caught at the call boundary. -/
theorem handler_rejection_uncaught :
    (hookHandleFileChange (Except.error "boom".data) (Except.ok [])
        ⟨true, false, none, [], []⟩).2 = .rejected "boom".data ∧
    (collectionHandleFileChange (Except.error "boom".data) none).2 =
      .rejected "boom".data := ⟨rfl, rfl⟩

/-- C5 (amended): the initial fetches (`initializeAPI`), `refreshFiles`,
the file content load and the save action catch every failure at the call
boundary and convert it to a message string, but the event-driven refetch
handlers (`handleFileChange` in the hook and in `CollectionBrowser`) catch
nothing: their rejections propagate uncaught. -/
theorem async_failure_boundaries :
    (∀ (r : Except JSStr (List CCFile)) (s : HookState),
      (refreshFiles r s).2 = .resolved) ∧
    (∀ (r : Except JSStr JSStr) (s : EditorState),
      (loadFileContent r s).2 = .resolved) ∧
    (∀ (f : Option CCFile) (b : Bool) (r : Except JSStr Unit) (s : EditorState),
      (handleSave f b r s).2.2 = .resolved) ∧
    (∀ (rt v1 : Bool) (fr : Except JSStr (List CCFile))
        (cr : Except JSStr (List JSStr)) (s : HookState),
      (initializeAPI rt v1 fr cr s).2.2 = .resolved) ∧
    (∀ (m : JSStr) (s : HookState), s.api = true →
      (refreshFiles (Except.error m) s).1.error = some m) ∧
    (∀ (m : JSStr) (s : EditorState),
      (loadFileContent (Except.error m) s).1.error = some m) ∧
    (∀ (m : JSStr) (cl : List JSStr) (s : HookState),
      (hookHandleFileChange (Except.error m) (Except.ok cl) s).2 = .rejected m) ∧
    (∀ (m : JSStr) (items : Option (List CCFile)),
      (collectionHandleFileChange (Except.error m) items).2 = .rejected m) := by
  refine ⟨?_, ?_, ?_, ?_, ?_, ?_, fun m cl s => rfl, fun m items => rfl⟩
  · intro r s
    rw [refreshFiles]
    rcases hapi : s.api with _ | _
    · rw [if_pos (by simp [hapi])]
    · rw [if_neg (by simp [hapi])]
      rcases r with m | fl <;> rfl
  · intro r s
    rcases r with m | c <;> rfl
  · intro f b r s
    rw [handleSave]
    by_cases hguard : f = none ∨ b = false ∨ ¬ hasUnsavedChanges s ∨ s.isSaving = true
    · rw [if_pos hguard]
    · rw [if_neg hguard]
      rcases r with m | u <;> rfl
  · intro rt v1 fr cr s
    rw [initializeAPI]
    rcases hrt : rt with _ | _
    · rw [if_pos (by simp)]
    · rw [if_neg (by simp)]
      rcases hv1 : v1 with _ | _
      · rw [if_pos (by simp)]
      · rw [if_neg (by simp)]
        rcases fr with m | fl
        · rfl
        · rcases cr with m | cl <;> rfl
  · intro m s hapi
    rw [refreshFiles, if_neg (by simp [hapi])]
  · intro m s
    rfl

/-- Witness for C5 (amended): the `refreshFiles` failure path at a concrete
state converts the thrown message into the error state. -/
theorem async_failure_boundaries_witness :
    (refreshFiles (Except.error "e".data) ⟨true, false, none, [], []⟩).1.error =
      some "e".data :=
  async_failure_boundaries.2.2.2.2.1 "e".data ⟨true, false, none, [], []⟩ rfl

theorem removeOneListener_append_of_not_mem (h : Nat) (e : APIEvent) :
    ∀ (l1 l2 : List (Nat × APIEvent)), (h, e) ∉ l1 →
      removeOneListener h e (l1 ++ l2) = l1 ++ removeOneListener h e l2 := by
  intro l1 l2 hmem
  induction l1 with
  | nil => simp
  | cons x rest ih =>
    rw [List.cons_append, removeOneListener,
      if_neg (fun hx => hmem (by simp [hx])),
      ih (fun hm => hmem (List.mem_cons_of_mem x hm))]
    rfl

/-- C6 counterexample: two mount/unmount cycles with the router absent from
`window` leave two `cloudcannon:load` listeners on the document — the
discovery effect registers without `once` and returns no cleanup, so the
registration has no matching deregistration. -/
theorem doc_listener_leak :
    (mountUnmountCycle false false 1
        (mountUnmountCycle false false 0 ⟨0, []⟩)).docLoadListeners = 2 := rfl

theorem removeOne_triple (h : Nat) (l : List (Nat × APIEvent))
    (hfresh : ∀ e, (h, e) ∉ l) :
    removeOneListener h .delete (removeOneListener h .create (removeOneListener h .change
      (l ++ [(h, .change), (h, .create), (h, .delete)]))) = l := by
  rw [removeOneListener_append_of_not_mem h .change _ _ (hfresh .change)]
  rw [show removeOneListener h .change [(h, .change), (h, .create), (h, .delete)] =
    [(h, .create), (h, .delete)] from by simp [removeOneListener]]
  rw [removeOneListener_append_of_not_mem h .create _ _ (hfresh .create)]
  rw [show removeOneListener h .create [(h, .create), (h, .delete)] =
    [(h, .delete)] from by simp [removeOneListener]]
  rw [removeOneListener_append_of_not_mem h .delete _ _ (hfresh .delete)]
  rw [show removeOneListener h .delete [(h, .delete)] = [] from by simp [removeOneListener]]
  simp

/-- C6 (amended): the three `change`/`create`/`delete` listeners registered
by the initialization effect are deregistered by its cleanup,
unconditionally (nothing is registered on error paths, so nothing is
removed); but the `cloudcannon:load` document listener registered by the
discovery effect when the router is absent has no matching deregistration,
so each such mount/unmount cycle adds one document listener. -/
theorem listener_cycle_accounting :
    ∀ (router registered : Bool) (h : Nat) (L : Listeners),
      (∀ e, (h, e) ∉ L.apiListeners) →
      (mountUnmountCycle router registered h L).apiListeners = L.apiListeners ∧
      (mountUnmountCycle router registered h L).docLoadListeners =
        (if router then L.docLoadListeners else L.docLoadListeners + 1) := by
  intro router registered h L hfresh
  rcases router with _ | _ <;> rcases registered with _ | _ <;>
    simp [mountUnmountCycle, discoveryEffectMount, discoveryEffectCleanup,
      initEffectMount, initEffectCleanup, removeOne_triple h L.apiListeners hfresh]

/-- Witness for C6 (amended) at a concrete listener state. -/
theorem listener_cycle_accounting_witness :
    (mountUnmountCycle false true 0 ⟨0, [(5, .change)]⟩).apiListeners =
        [(5, .change)] ∧
    (mountUnmountCycle false true 0 ⟨0, [(5, .change)]⟩).docLoadListeners = 1 :=
  listener_cycle_accounting false true 0 ⟨0, [(5, .change)]⟩
    (by intro e; rcases e <;> decide)

